import Mathlib

/-!
Verification of the regex-eq repository: NFAs with epsilon transitions,
the subset construction to DFAs, product constructions, the regular
expression lexer, parser and evaluator.

The repository contains two revisions of the automaton code: the
top-level files (`nfa.py`, `dfa.py`, `regular.py`, `main.py`) and the
package under `src/regular/` (`nfa.py`, `dfa.py`, `regular.py`).
Where the two revisions differ, the embedding models both and the
theorems say which revision they are about.
-/

set_option linter.unusedSectionVars false

open Computability

namespace RegexEq

/-! ## Generic bounded-iteration closure over finite types

The Python code computes reachability sets (epsilon closures, the set of
subsets discovered by the subset construction, the set of reachable
product pairs, the states visited by `NFA.__iter__`) with a worklist
breadth-first search.  A BFS over a finite carrier computes the least
set containing the seeds and closed under the expansion function; we
embed it as `Fintype.card` many iterations of one expansion round,
which reaches the same fixed point. -/

section Closure

variable {β : Type} [DecidableEq β] [Fintype β]

/-- One round of closure expansion: keep what we have and add everything
the expansion function `f` produces from it. -/
def closeStep (f : Finset β → Finset β) (T : Finset β) : Finset β :=
  T ∪ f T

/-- The closure of `R` under `f`, computed by `Fintype.card β` rounds of
expansion (enough to reach the fixed point the worklist BFS computes). -/
def iterClose (f : Finset β → Finset β) (R : Finset β) : Finset β :=
  (closeStep f)^[Fintype.card β] R

lemma subset_closeStep (f : Finset β → Finset β) (T : Finset β) :
    T ⊆ closeStep f T :=
  Finset.subset_union_left

lemma iterate_closeStep_subset_succ (f : Finset β → Finset β) (R : Finset β) (k : ℕ) :
    (closeStep f)^[k] R ⊆ (closeStep f)^[k + 1] R := by
  rw [Function.iterate_succ_apply']
  exact subset_closeStep f _

lemma iterate_closeStep_mono (f : Finset β → Finset β) (R : Finset β) {j k : ℕ}
    (h : j ≤ k) : (closeStep f)^[j] R ⊆ (closeStep f)^[k] R := by
  induction k with
  | zero => simp [Nat.le_zero.mp h]
  | succ k ih =>
    rcases Nat.lt_or_ge j (k + 1) with hlt | hge
    · exact (ih (Nat.lt_succ_iff.mp hlt)).trans (iterate_closeStep_subset_succ f R k)
    · have : j = k + 1 := le_antisymm h hge
      subst this
      exact Finset.Subset.refl _

lemma closeStep_stabilizes_from (f : Finset β → Finset β) (R : Finset β) {k : ℕ}
    (h : (closeStep f)^[k] R = (closeStep f)^[k + 1] R) :
    ∀ j, k ≤ j → (closeStep f)^[j] R = (closeStep f)^[k] R := by
  intro j hj
  induction j with
  | zero =>
    have : k = 0 := Nat.le_zero.mp hj
    simp [this]
  | succ j ih =>
    rcases Nat.lt_or_ge j k with hlt | hge
    · have : k = j + 1 := le_antisymm hj hlt
      simp [this]
    · have hj' := ih hge
      have hstep : (closeStep f)^[k + 1] R = closeStep f ((closeStep f)^[k] R) :=
        Function.iterate_succ_apply' _ _ _
      rw [Function.iterate_succ_apply', hj', ← hstep, ← h]

lemma closeStep_exists_stable (f : Finset β → Finset β) (R : Finset β) :
    ∃ k ≤ Fintype.card β, (closeStep f)^[k] R = (closeStep f)^[k + 1] R := by
  by_contra hcon
  push_neg at hcon
  have hstrict : ∀ k ≤ Fintype.card β,
      (closeStep f)^[k] R ⊂ (closeStep f)^[k + 1] R := fun k hk =>
    ssubset_of_subset_of_ne (iterate_closeStep_subset_succ f R k) (hcon k hk)
  have hcard : ∀ k ≤ Fintype.card β + 1, k ≤ ((closeStep f)^[k] R).card := by
    intro k hk
    induction k with
    | zero => exact Nat.zero_le _
    | succ k ih =>
      have hk' : k ≤ Fintype.card β := Nat.lt_succ_iff.mp hk
      have h1 := ih (hk'.trans (Nat.le_succ _))
      have h2 := Finset.card_lt_card (hstrict k hk')
      omega
  have hbig := hcard (Fintype.card β + 1) (le_refl _)
  have hle := Finset.card_le_univ ((closeStep f)^[Fintype.card β + 1] R)
  simp only [Finset.card_univ] at hle
  omega

lemma closeStep_iterClose (f : Finset β → Finset β) (R : Finset β) :
    closeStep f (iterClose f R) = iterClose f R := by
  obtain ⟨k, hk, hstab⟩ := closeStep_exists_stable f R
  have h1 := closeStep_stabilizes_from f R hstab (Fintype.card β) hk
  have h2 := closeStep_stabilizes_from f R hstab (Fintype.card β + 1)
    (hk.trans (Nat.le_succ _))
  unfold iterClose
  have hstep : closeStep f ((closeStep f)^[Fintype.card β] R)
      = (closeStep f)^[Fintype.card β + 1] R :=
    (Function.iterate_succ_apply' _ _ _).symm
  rw [hstep, h2, h1]

lemma subset_iterClose (f : Finset β → Finset β) (R : Finset β) :
    R ⊆ iterClose f R :=
  iterate_closeStep_mono f R (Nat.zero_le _)

lemma apply_iterClose_subset (f : Finset β → Finset β) (R : Finset β) :
    f (iterClose f R) ⊆ iterClose f R := by
  intro x hx
  have : x ∈ closeStep f (iterClose f R) := Finset.mem_union_right _ hx
  rwa [closeStep_iterClose] at this

/-- Everything in the closure is produced from the seeds by finitely many
expansion steps: an induction principle matching the worklist BFS. -/
lemma iterClose_sound (f : Finset β → Finset β) (R : Finset β) (P : β → Prop)
    (hR : ∀ x ∈ R, P x)
    (hf : ∀ T : Finset β, (∀ x ∈ T, P x) → ∀ x ∈ f T, P x) :
    ∀ x ∈ iterClose f R, P x := by
  have key : ∀ k, ∀ x ∈ (closeStep f)^[k] R, P x := by
    intro k
    induction k with
    | zero => exact hR
    | succ k ih =>
      intro x hx
      rw [Function.iterate_succ_apply'] at hx
      rcases Finset.mem_union.mp hx with h | h
      · exact ih x h
      · exact hf _ ih x h
  exact key _

lemma iterClose_idem_of_fixed (f : Finset β → Finset β) (R : Finset β)
    (h : f R ⊆ R) : iterClose f R = R := by
  have hfix : closeStep f R = R := by
    unfold closeStep
    exact Finset.union_eq_left.mpr h
  unfold iterClose
  exact Function.iterate_fixed hfix _

end Closure

/-! ## NFA model (`nfa.py`, class `NFA`)

A 5-tuple `(Q, S, d, q0, F)`.  States are opaque identities; we model an
automaton whose state set is a type `σ` (so `Q` is the whole type).  The
transition dictionary maps `(state, symbol-or-epsilon)` to a set of
states; `Option Char` models symbol-or-epsilon with `none` as the
epsilon key `""`.  A missing dictionary entry is the empty set. -/

structure NFAm (σ : Type) where
  S : Finset Char
  d : σ → Option Char → Finset σ
  q0 : σ
  F : Finset σ

namespace NFAm

variable {σ : Type} [DecidableEq σ] [Fintype σ]

/-- Well-formedness of the transition dictionary: the constructors in
`nfa.py` build `d` with key set `Q × (S ∪ \x7b""\x7d)`, so a lookup at a
symbol outside the alphabet is the empty set. -/
def WF (n : NFAm σ) : Prop :=
  ∀ q c, c ∉ n.S → n.d q (some c) = ∅

/-- One epsilon-expansion round used by the closure `E` in
`DFA.from_NFA` (`dfa.py` lines 75-90): all epsilon successors of `T`. -/
def epsSetStep (n : NFAm σ) (T : Finset σ) : Finset σ :=
  T.biUnion fun q => n.d q none

/-- The epsilon closure `E(R)` of `DFA.from_NFA`: the states reachable
from `R` through 0 or more epsilon transitions (computed there by BFS). -/
def E (n : NFAm σ) (R : Finset σ) : Finset σ :=
  iterClose n.epsSetStep R

/-- Epsilon reachability: 0 or more epsilon transitions. -/
def EpsReach (n : NFAm σ) : σ → σ → Prop :=
  Relation.ReflTransGen fun p q => q ∈ n.d p none

/-- Direct NFA path semantics: `Reaches n q w p` holds when the NFA can
go from state `q` to state `p` along transitions whose non-epsilon
labels spell exactly `w`.  This is the specification-side "direct
simulation, resolving epsilon transitions". -/
inductive Reaches {σ : Type} (n : NFAm σ) : σ → List Char → σ → Prop where
  | refl (q : σ) : Reaches n q [] q
  | eps {q r p : σ} {w : List Char} :
      r ∈ n.d q none → Reaches n r w p → Reaches n q w p
  | sym {q r p : σ} {c : Char} {w : List Char} :
      r ∈ n.d q (some c) → Reaches n r w p → Reaches n q (c :: w) p

/-- The language of the NFA under direct simulation: some accepting
state is reachable from the start state consuming `w`. -/
def Accepts (n : NFAm σ) (w : List Char) : Prop :=
  ∃ f ∈ n.F, Reaches n n.q0 w f

/-- Union over a subset of the symbol successors, as in `DFA.from_NFA`
line 100: `set().union(*(d1[q, c] for q in subset))`. -/
def symStep (n : NFAm σ) (R : Finset σ) (c : Char) : Finset σ :=
  R.biUnion fun q => n.d q (some c)

/-- The transition of the DFA built by the subset construction
(`dfa.py` line 100): `E` of the union of symbol successors. -/
def dfaDelta (n : NFAm σ) (R : Finset σ) (c : Char) : Finset σ :=
  n.E (n.symStep R c)

/-- The start state of the subset-construction DFA (`dfa.py` line 92). -/
def dfaStart (n : NFAm σ) : Finset σ :=
  n.E {n.q0}

/-- A subset is an accepting DFA state iff it meets the NFA accepting
set (`dfa.py` line 115). -/
def subsetAccepting (n : NFAm σ) (R : Finset σ) : Prop :=
  (R ∩ n.F).Nonempty

instance (n : NFAm σ) (R : Finset σ) : Decidable (n.subsetAccepting R) :=
  Finset.decidableNonempty

/-- `DFA.from_NFA(n).accept(w)` (`dfa.py` lines 119-129): walk the
subset-construction transition function from the start subset and test
acceptance of the final subset.  `from_NFA` relabels each discovered
subset with a fresh opaque state; that relabelling is a bijection on the
discovered subsets and commutes with the transition map, so `accept` on
the relabelled DFA computes exactly this walk over subsets. -/
def dfaAccepts (n : NFAm σ) (w : List Char) : Prop :=
  n.subsetAccepting (w.foldl n.dfaDelta n.dfaStart)

instance (n : NFAm σ) (w : List Char) : Decidable (n.dfaAccepts w) := by
  unfold dfaAccepts
  infer_instance

/-! ### Characterisation of the epsilon closure -/

lemma mem_E_self (n : NFAm σ) {R : Finset σ} {q : σ} (h : q ∈ R) : q ∈ n.E R :=
  subset_iterClose _ _ h

lemma E_closed_eps (n : NFAm σ) {R : Finset σ} {q r : σ}
    (hq : q ∈ n.E R) (hr : r ∈ n.d q none) : r ∈ n.E R := by
  refine apply_iterClose_subset n.epsSetStep R ?_
  exact Finset.mem_biUnion.mpr ⟨q, hq, hr⟩

lemma mem_E_iff (n : NFAm σ) {R : Finset σ} {p : σ} :
    p ∈ n.E R ↔ ∃ q ∈ R, n.EpsReach q p := by
  constructor
  · refine iterClose_sound n.epsSetStep R (fun p => ∃ q ∈ R, n.EpsReach q p)
      (fun x hx => ⟨x, hx, Relation.ReflTransGen.refl⟩) ?_ p
    intro T hT x hx
    rcases Finset.mem_biUnion.mp hx with ⟨y, hy, hxy⟩
    rcases hT y hy with ⟨q, hq, hreach⟩
    exact ⟨q, hq, hreach.tail hxy⟩
  · rintro ⟨q, hq, hreach⟩
    induction hreach with
    | refl => exact n.mem_E_self hq
    | tail _ hstep ih => exact n.E_closed_eps ih hstep

/-- A set is epsilon-closed when it contains all epsilon successors of
its members. -/
def IsClosed (n : NFAm σ) (R : Finset σ) : Prop :=
  ∀ q ∈ R, ∀ r ∈ n.d q none, r ∈ R

lemma E_isClosed (n : NFAm σ) (R : Finset σ) : n.IsClosed (n.E R) :=
  fun _ hq _ hr => n.E_closed_eps hq hr

lemma mem_closed_of_epsReach (n : NFAm σ) {R : Finset σ} (hC : n.IsClosed R)
    {q p : σ} (hq : q ∈ R) (h : n.EpsReach q p) : p ∈ R := by
  induction h with
  | refl => exact hq
  | tail _ hstep ih => exact hC _ ih _ hstep

/-! ### Path lemmas relating `Reaches` to the subset construction -/

lemma reaches_of_eq_nil (n : NFAm σ) {q p : σ} {w : List Char}
    (h : Reaches n q w p) (hw : w = []) : n.EpsReach q p := by
  induction h with
  | refl => exact Relation.ReflTransGen.refl
  | eps hstep _ ih => exact Relation.ReflTransGen.head hstep (ih hw)
  | sym _ _ _ => simp at hw

lemma reaches_nil_iff (n : NFAm σ) {q p : σ} :
    Reaches n q [] p ↔ n.EpsReach q p := by
  constructor
  · exact fun h => n.reaches_of_eq_nil h rfl
  · intro h
    induction h using Relation.ReflTransGen.head_induction_on with
    | refl => exact Reaches.refl _
    | head hstep _ ih => exact Reaches.eps hstep ih

lemma epsReach_reaches (n : NFAm σ) {q q' p : σ} {w : List Char}
    (h : n.EpsReach q q') (h2 : Reaches n q' w p) : Reaches n q w p := by
  induction h using Relation.ReflTransGen.head_induction_on with
  | refl => exact h2
  | head hstep _ ih => exact Reaches.eps hstep ih

lemma reaches_of_eq_cons (n : NFAm σ) {q p : σ} {v w : List Char} {c : Char}
    (h : Reaches n q v p) (hv : v = c :: w) :
    ∃ q' r, n.EpsReach q q' ∧ r ∈ n.d q' (some c) ∧ Reaches n r w p := by
  induction h with
  | refl => simp at hv
  | eps hstep _ ih =>
    rcases ih hv with ⟨q', r, heps, hd, hr⟩
    exact ⟨q', r, Relation.ReflTransGen.head hstep heps, hd, hr⟩
  | sym hstep hrest _ =>
    rcases List.cons.injEq .. ▸ hv with ⟨hc, hw⟩
    subst hc
    subst hw
    exact ⟨_, _, Relation.ReflTransGen.refl, hstep, hrest⟩

lemma reaches_cons_iff (n : NFAm σ) {q p : σ} {w : List Char} {c : Char} :
    Reaches n q (c :: w) p ↔
      ∃ q' r, n.EpsReach q q' ∧ r ∈ n.d q' (some c) ∧ Reaches n r w p := by
  constructor
  · exact fun h => n.reaches_of_eq_cons h rfl
  · rintro ⟨q', r, heps, hd, hr⟩
    exact n.epsReach_reaches heps (Reaches.sym hd hr)

lemma mem_dfaDelta_iff (n : NFAm σ) {R : Finset σ} {c : Char} {p : σ} :
    p ∈ n.dfaDelta R c ↔
      ∃ q ∈ R, ∃ r ∈ n.d q (some c), n.EpsReach r p := by
  unfold dfaDelta
  rw [mem_E_iff]
  constructor
  · rintro ⟨r, hr, hreach⟩
    rcases Finset.mem_biUnion.mp hr with ⟨q, hq, hqr⟩
    exact ⟨q, hq, r, hqr, hreach⟩
  · rintro ⟨q, hq, r, hqr, hreach⟩
    exact ⟨r, Finset.mem_biUnion.mpr ⟨q, hq, hqr⟩, hreach⟩

/-- Walking the subset-construction transition function over `w` from an
epsilon-closed set computes exactly the endpoints of direct NFA paths
labelled `w` out of that set. -/
lemma foldl_dfaDelta_mem (n : NFAm σ) :
    ∀ (w : List Char) (R : Finset σ), n.IsClosed R →
      ∀ p : σ, p ∈ w.foldl n.dfaDelta R ↔ ∃ q ∈ R, Reaches n q w p := by
  intro w
  induction w with
  | nil =>
    intro R hC p
    simp only [List.foldl_nil]
    constructor
    · exact fun hp => ⟨p, hp, Reaches.refl p⟩
    · rintro ⟨q, hq, hr⟩
      exact n.mem_closed_of_epsReach hC hq ((n.reaches_nil_iff).mp hr)
  | cons c w ih =>
    intro R hC p
    simp only [List.foldl_cons]
    rw [ih (n.dfaDelta R c) (n.E_isClosed _)]
    constructor
    · rintro ⟨q', hq', hr⟩
      rcases n.mem_dfaDelta_iff.mp hq' with ⟨q, hq, r, hd, heps⟩
      exact ⟨q, hq, Reaches.sym hd (n.epsReach_reaches heps hr)⟩
    · rintro ⟨q, hq, hr⟩
      rcases n.reaches_cons_iff.mp hr with ⟨q', r, heps, hd, hrest⟩
      have hq'R : q' ∈ R := n.mem_closed_of_epsReach hC hq heps
      refine ⟨r, n.mem_dfaDelta_iff.mpr ⟨q', hq'R, r, hd, Relation.ReflTransGen.refl⟩, hrest⟩

end NFAm

/-! ## Reachable subsets of the subset construction (claims C5, C9)

`DFA.from_NFA` discovers subsets with a worklist starting at the start
subset and expanding over every alphabet symbol; the discovered set is
the closure of the start subset under the DFA transition over the
alphabet. -/

namespace NFAm

variable {σ : Type} [DecidableEq σ] [Fintype σ]

/-- One worklist round of `DFA.from_NFA` (lines 97-105): the successors
of already discovered subsets over every symbol of the alphabet. -/
def subsetsExpand (n : NFAm σ) (T : Finset (Finset σ)) : Finset (Finset σ) :=
  T.biUnion fun R => n.S.image (n.dfaDelta R)

/-- The set of subsets discovered by the worklist of `DFA.from_NFA`:
these become the state set `Q` of the resulting DFA. -/
def reachableSubsets (n : NFAm σ) : Finset (Finset σ) :=
  iterClose n.subsetsExpand {n.dfaStart}

lemma dfaStart_mem_reachableSubsets (n : NFAm σ) :
    n.dfaStart ∈ n.reachableSubsets :=
  subset_iterClose _ _ (Finset.mem_singleton_self _)

lemma dfaDelta_mem_reachableSubsets (n : NFAm σ) (R : Finset σ)
    (hR : R ∈ n.reachableSubsets) (c : Char) (hc : c ∈ n.S) :
    n.dfaDelta R c ∈ n.reachableSubsets := by
  refine apply_iterClose_subset n.subsetsExpand _ ?_
  exact Finset.mem_biUnion.mpr ⟨R, hR, Finset.mem_image_of_mem _ hc⟩

lemma foldl_dfaDelta_mem_reachableSubsets (n : NFAm σ) :
    ∀ (w : List Char) (R : Finset σ), R ∈ n.reachableSubsets →
      (∀ c ∈ w, c ∈ n.S) → w.foldl n.dfaDelta R ∈ n.reachableSubsets := by
  intro w
  induction w with
  | nil => intro R hR _; simpa using hR
  | cons c w ih =>
    intro R hR hw
    simp only [List.foldl_cons]
    exact ih _ (n.dfaDelta_mem_reachableSubsets R hR c (hw c (List.mem_cons_self c w)))
      fun c' hc' => hw c' (List.mem_cons_of_mem _ hc')

end NFAm

/-- Shared helper: the subset-construction walk accepts exactly the
strings of the direct path semantics. -/
lemma NFAm.dfaAccepts_iff_accepts {σ : Type} [DecidableEq σ] [Fintype σ]
    (n : NFAm σ) (w : List Char) : n.dfaAccepts w ↔ n.Accepts w := by
  unfold NFAm.dfaAccepts NFAm.subsetAccepting NFAm.Accepts
  constructor
  · rintro ⟨f, hf⟩
    rcases Finset.mem_inter.mp hf with ⟨hmem, hF⟩
    rcases (n.foldl_dfaDelta_mem w n.dfaStart (n.E_isClosed _) f).mp hmem
      with ⟨q, hq, hr⟩
    have hq0 : n.EpsReach n.q0 q := by
      rcases n.mem_E_iff.mp hq with ⟨q0', hq0', hreach⟩
      rwa [Finset.mem_singleton.mp hq0'] at hreach
    exact ⟨f, hF, n.epsReach_reaches hq0 hr⟩
  · rintro ⟨f, hF, hr⟩
    refine ⟨f, Finset.mem_inter.mpr ⟨?_, hF⟩⟩
    refine (n.foldl_dfaDelta_mem w n.dfaStart (n.E_isClosed _) f).mpr ?_
    exact ⟨n.q0, n.mem_E_self (Finset.mem_singleton_self _), hr⟩

/-- Claim C1.  For every NFA `n` and every string `w` over `n`'s
alphabet, `DFA.from_NFA(n).accept(w)` returns true if and only if
direct simulation of `n` accepts `w`: some accepting state of `n` is
reachable from `n`'s start state by consuming `w` symbol by symbol
while resolving epsilon transitions. -/
theorem from_NFA_accept_iff_direct_simulation {σ : Type} [DecidableEq σ]
    [Fintype σ] (n : NFAm σ) (w : List Char) (hw : ∀ c ∈ w, c ∈ n.S) :
    n.dfaAccepts w ↔ n.Accepts w :=
  n.dfaAccepts_iff_accepts w

/-- A tiny concrete NFA used to instantiate theorems with hypotheses:
two states, alphabet `a`, a single transition `0 --a--> 1`, accepting
state `1`. -/
def exampleNFA : NFAm (Fin 2) where
  S := {'a'}
  d q c := if q = 0 ∧ c = some 'a' then {1} else ∅
  q0 := 0
  F := {1}

/-- Witness for C1: the equivalence instantiated at the concrete NFA
`exampleNFA` and the in-alphabet string `"a"`. -/
theorem from_NFA_accept_iff_direct_simulation_witness :
    (∀ c ∈ ['a'], c ∈ exampleNFA.S) ∧
      (exampleNFA.dfaAccepts ['a'] ↔ exampleNFA.Accepts ['a']) :=
  ⟨by decide, from_NFA_accept_iff_direct_simulation exampleNFA ['a'] (by decide)⟩

namespace NFAm

variable {σ : Type} [DecidableEq σ] [Fintype σ]

lemma E_empty (n : NFAm σ) : n.E (∅ : Finset σ) = ∅ := by
  refine iterClose_idem_of_fixed _ _ ?_
  simp [epsSetStep]

lemma dfaDelta_empty (n : NFAm σ) (c : Char) :
    n.dfaDelta (∅ : Finset σ) c = ∅ := by
  unfold dfaDelta symStep
  rw [Finset.biUnion_empty]
  exact n.E_empty

end NFAm

/-- Claim C5.  The DFA built by `DFA.from_NFA` is total: every subset
discovered by the worklist has exactly one successor (given by the
transition function `dfaDelta`) for every symbol of the alphabet, and
that successor is itself a discovered subset; the empty subset is a
non-accepting sink (all its successors are the empty subset and it is
not accepting); consequently `accept`'s walk over any string over the
alphabet only ever visits discovered subsets, never an undefined
transition. -/
theorem from_NFA_total {σ : Type} [DecidableEq σ] [Fintype σ] (n : NFAm σ) :
    (∀ R ∈ n.reachableSubsets, ∀ c ∈ n.S,
        n.dfaDelta R c ∈ n.reachableSubsets) ∧
      (∀ c : Char, n.dfaDelta (∅ : Finset σ) c = ∅) ∧
      ¬ n.subsetAccepting (∅ : Finset σ) ∧
      ∀ w : List Char, (∀ c ∈ w, c ∈ n.S) →
        w.foldl n.dfaDelta n.dfaStart ∈ n.reachableSubsets := by
  refine ⟨fun R hR c hc => n.dfaDelta_mem_reachableSubsets R hR c hc,
    n.dfaDelta_empty, ?_, fun w hw =>
      n.foldl_dfaDelta_mem_reachableSubsets w n.dfaStart
        n.dfaStart_mem_reachableSubsets hw⟩
  simp [NFAm.subsetAccepting]

/-- Witness for C5: the totality facts instantiated at the concrete NFA
`exampleNFA`, the discovered start subset, the symbol `a` and the
string `"a"`. -/
theorem from_NFA_total_witness :
    exampleNFA.dfaDelta exampleNFA.dfaStart 'a' ∈ exampleNFA.reachableSubsets ∧
      ['a'].foldl exampleNFA.dfaDelta exampleNFA.dfaStart ∈
        exampleNFA.reachableSubsets :=
  ⟨(from_NFA_total exampleNFA).1 exampleNFA.dfaStart
      exampleNFA.dfaStart_mem_reachableSubsets 'a' (by decide),
    (from_NFA_total exampleNFA).2.2.2 ['a'] (by decide)⟩

/-! ## DFA model (`dfa.py`, class `DFA`)

A DFA 5-tuple `(Q, S, d, q0, F)` with a single-valued transition
function.  `Q` is carried explicitly (the constructions produce DFAs
whose state set is a strict subset of the carrier type). -/

structure DFAm (τ : Type) where
  Q : Finset τ
  S : Finset Char
  delta : τ → Char → τ
  q0 : τ
  F : Finset τ

namespace DFAm

variable {τ τ1 τ2 : Type} [DecidableEq τ] [DecidableEq τ1] [DecidableEq τ2]
variable [Fintype τ] [Fintype τ1] [Fintype τ2]

/-- `DFA.accept` (`dfa.py` lines 119-129): walk the transition function
from `q0` and test membership of the final state in `F`. -/
def acceptD (M : DFAm τ) (w : List Char) : Prop :=
  w.foldl M.delta M.q0 ∈ M.F

instance (M : DFAm τ) (w : List Char) : Decidable (M.acceptD w) := by
  unfold acceptD
  infer_instance

/-! ### Product construction (`dfa.py` `intersection`/`union`,
lines 147-231).  Both require `S1 == S2` (else `ValueError("alphabet
mismatch")`); the worklist explores state pairs from `(q1, q2)` over the
shared alphabet; each visited pair becomes one fresh state (a bijective
relabelling that commutes with the transitions, so `accept` on the
result is the walk over pairs modelled here). -/

/-- The product transition on a state pair: both components step. -/
def pairStep (M1 : DFAm τ1) (M2 : DFAm τ2) (p : τ1 × τ2) (c : Char) :
    τ1 × τ2 :=
  (M1.delta p.1 c, M2.delta p.2 c)

/-- One worklist round of the product construction. -/
def pairsExpand (M1 : DFAm τ1) (M2 : DFAm τ2) (T : Finset (τ1 × τ2)) :
    Finset (τ1 × τ2) :=
  T.biUnion fun p => M1.S.image (pairStep M1 M2 p)

/-- The pairs visited by the product worklist: the state set of the
product DFA. -/
def reachablePairs (M1 : DFAm τ1) (M2 : DFAm τ2) : Finset (τ1 × τ2) :=
  iterClose (pairsExpand M1 M2) {(M1.q0, M2.q0)}

/-- Accepting pairs of `DFA.intersection` (line 186): a visited pair is
accepting iff both components are accepting. -/
def interFinal (M1 : DFAm τ1) (M2 : DFAm τ2) : Finset (τ1 × τ2) :=
  (reachablePairs M1 M2).filter fun p => p.1 ∈ M1.F ∧ p.2 ∈ M2.F

/-- Accepting pairs of `DFA.union` (line 229): a visited pair is
accepting iff either component is accepting. -/
def unionFinal (M1 : DFAm τ1) (M2 : DFAm τ2) : Finset (τ1 × τ2) :=
  (reachablePairs M1 M2).filter fun p => p.1 ∈ M1.F ∨ p.2 ∈ M2.F

/-- `M1.intersection(M2).accept(w)`: the walk over pairs ending in an
accepting pair of the intersection product. -/
def interAccept (M1 : DFAm τ1) (M2 : DFAm τ2) (w : List Char) : Prop :=
  w.foldl (pairStep M1 M2) (M1.q0, M2.q0) ∈ interFinal M1 M2

/-- `M1.union(M2).accept(w)`: the walk over pairs ending in an accepting
pair of the union product. -/
def unionAccept (M1 : DFAm τ1) (M2 : DFAm τ2) (w : List Char) : Prop :=
  w.foldl (pairStep M1 M2) (M1.q0, M2.q0) ∈ unionFinal M1 M2

lemma foldl_pairStep (M1 : DFAm τ1) (M2 : DFAm τ2) :
    ∀ (w : List Char) (p : τ1 × τ2),
      w.foldl (pairStep M1 M2) p = (w.foldl M1.delta p.1, w.foldl M2.delta p.2) := by
  intro w
  induction w with
  | nil => intro p; simp
  | cons c w ih => intro p; simp only [List.foldl_cons]; exact ih _

lemma start_mem_reachablePairs (M1 : DFAm τ1) (M2 : DFAm τ2) :
    (M1.q0, M2.q0) ∈ reachablePairs M1 M2 :=
  subset_iterClose _ _ (Finset.mem_singleton_self _)

lemma pairStep_mem_reachablePairs (M1 : DFAm τ1) (M2 : DFAm τ2)
    {p : τ1 × τ2} (hp : p ∈ reachablePairs M1 M2) {c : Char}
    (hc : c ∈ M1.S) : pairStep M1 M2 p c ∈ reachablePairs M1 M2 := by
  refine apply_iterClose_subset (pairsExpand M1 M2) _ ?_
  exact Finset.mem_biUnion.mpr ⟨p, hp, Finset.mem_image_of_mem _ hc⟩

lemma foldl_pairStep_mem_reachablePairs (M1 : DFAm τ1) (M2 : DFAm τ2) :
    ∀ (w : List Char) (p : τ1 × τ2), p ∈ reachablePairs M1 M2 →
      (∀ c ∈ w, c ∈ M1.S) →
      w.foldl (pairStep M1 M2) p ∈ reachablePairs M1 M2 := by
  intro w
  induction w with
  | nil => intro p hp _; simpa using hp
  | cons c w ih =>
    intro p hp hw
    simp only [List.foldl_cons]
    exact ih _ (pairStep_mem_reachablePairs M1 M2 hp (hw c (List.mem_cons_self c w)))
      fun c' hc' => hw c' (List.mem_cons_of_mem _ hc')

end DFAm

/-- Claim C2.  For DFAs `M1`, `M2` with identical alphabets, the product
construction marks a visited pair accepting for intersection iff both
components are accepting and for union iff either is; consequently, for
every string over the shared alphabet,
`M1.intersection(M2).accept(w) = (M1.accept(w) and M2.accept(w))` and
`M1.union(M2).accept(w) = (M1.accept(w) or M2.accept(w))`. -/
theorem product_construction_correct {τ1 τ2 : Type} [DecidableEq τ1]
    [DecidableEq τ2] [Fintype τ1] [Fintype τ2]
    (M1 : DFAm τ1) (M2 : DFAm τ2) (hS : M1.S = M2.S) :
    (∀ p ∈ DFAm.reachablePairs M1 M2,
        (p ∈ DFAm.interFinal M1 M2 ↔ p.1 ∈ M1.F ∧ p.2 ∈ M2.F) ∧
        (p ∈ DFAm.unionFinal M1 M2 ↔ p.1 ∈ M1.F ∨ p.2 ∈ M2.F)) ∧
      ∀ w : List Char, (∀ c ∈ w, c ∈ M1.S) →
        (DFAm.interAccept M1 M2 w ↔ M1.acceptD w ∧ M2.acceptD w) ∧
        (DFAm.unionAccept M1 M2 w ↔ M1.acceptD w ∨ M2.acceptD w) := by
  constructor
  · intro p hp
    constructor
    · unfold DFAm.interFinal
      rw [Finset.mem_filter]
      exact ⟨fun h => h.2, fun h => ⟨hp, h⟩⟩
    · unfold DFAm.unionFinal
      rw [Finset.mem_filter]
      exact ⟨fun h => h.2, fun h => ⟨hp, h⟩⟩
  · intro w hw
    have hmem : w.foldl (DFAm.pairStep M1 M2) (M1.q0, M2.q0) ∈
        DFAm.reachablePairs M1 M2 :=
      DFAm.foldl_pairStep_mem_reachablePairs M1 M2 w _
        (DFAm.start_mem_reachablePairs M1 M2) hw
    have hfold := DFAm.foldl_pairStep M1 M2 w (M1.q0, M2.q0)
    constructor
    · unfold DFAm.interAccept DFAm.interFinal DFAm.acceptD
      rw [Finset.mem_filter, hfold]
      exact ⟨fun h => h.2, fun h => ⟨hfold ▸ hmem, h⟩⟩
    · unfold DFAm.unionAccept DFAm.unionFinal DFAm.acceptD
      rw [Finset.mem_filter, hfold]
      exact ⟨fun h => h.2, fun h => ⟨hfold ▸ hmem, h⟩⟩

/-- A one-state DFA over alphabet `a` accepting every string. -/
def exampleDFA1 : DFAm (Fin 1) where
  Q := Finset.univ
  S := {'a'}
  delta q _ := q
  q0 := 0
  F := {0}

/-- A two-state parity DFA over alphabet `a` accepting strings of even
length. -/
def exampleDFA2 : DFAm (Fin 2) where
  Q := Finset.univ
  S := {'a'}
  delta q _ := q + 1
  q0 := 0
  F := {0}

/-- Witness for C2: the product equivalences instantiated at two
concrete DFAs with the same alphabet and the in-alphabet string `"a"`. -/
theorem product_construction_correct_witness :
    (DFAm.interAccept exampleDFA1 exampleDFA2 ['a'] ↔
        exampleDFA1.acceptD ['a'] ∧ exampleDFA2.acceptD ['a']) ∧
      (DFAm.unionAccept exampleDFA1 exampleDFA2 ['a'] ↔
        exampleDFA1.acceptD ['a'] ∨ exampleDFA2.acceptD ['a']) :=
  (product_construction_correct exampleDFA1 exampleDFA2 (by decide)).2
    ['a'] (by decide)

/-! ## NFA constructors and combinators (`nfa.py`) -/

namespace NFAm

variable {σ : Type} [DecidableEq σ] [Fintype σ]

/-- `NFA.from_string` (`nfa.py` lines 44-60): a linear chain of
`len(w) + 1` fresh states, state `i` stepping to state `i + 1` on
symbol `w[i]`; start is state `0`, accepting set is the last state. -/
def fromString (w : List Char) : NFAm (Fin (w.length + 1)) where
  S := w.toFinset
  d q c :=
    match c with
    | none => ∅
    | some a =>
      if h : (q : ℕ) < w.length then
        if w.get ⟨q, h⟩ = a then {⟨(q : ℕ) + 1, by omega⟩} else ∅
      else ∅
  q0 := ⟨0, Nat.succ_pos _⟩
  F := {Fin.last w.length}

/-- `NFA.star` of the `nfa.py` revision (lines 107-127): a fresh start
state `none` with an epsilon transition to the old start, an epsilon
transition from every old accepting state back to the old start, and
accepting set the old accepting set plus the new start.  Dictionary
lookups `(q, c) in d1` are modelled by the alphabet guard. -/
def starT (n : NFAm σ) : NFAm (Option σ) where
  S := n.S
  d q c :=
    match q, c with
    | none, none => {some n.q0}
    | none, some _ => ∅
    | some q, none =>
      (n.d q none).image some ∪ (if q ∈ n.F then {some n.q0} else ∅)
    | some q, some c =>
      if c ∈ n.S then (n.d q (some c)).image some else ∅
  q0 := none
  F := n.F.image some ∪ {none}

/-- `NFA.star` of the `main.py` revision (lines 103-123): identical to
the `nfa.py` revision except line 121 sets `F = F1`, leaving the fresh
start state out of the accepting set. -/
def mainStar (n : NFAm σ) : NFAm (Option σ) :=
  { starT n with F := n.F.image some }

end NFAm

/-- Claim C3 (code bug in the `main.py` revision).  The `nfa.py`
revision of `star` has accepting set `F ∪ \x7bnew start\x7d` and its
result accepts the empty string, as the claim states; the `main.py`
revision keeps `F = F1` (its only difference), so on
`NFA.from_string("a")` the starred automaton rejects the empty string
even though the empty string belongs to the Kleene star of every
language, contradicting the method's own docstring. -/
theorem star_empty_string_divergence :
    (NFAm.starT (NFAm.fromString ['a'])).F
        = (NFAm.fromString ['a']).F.image some ∪ {none} ∧
      (NFAm.starT (NFAm.fromString ['a'])).dfaAccepts [] ∧
      ¬ (NFAm.mainStar (NFAm.fromString ['a'])).dfaAccepts [] ∧
      ([] : List Char) ∈ ({['a']} : Language Char)∗ :=
  ⟨rfl, by decide, by decide, Language.nil_mem_kstar _⟩

/-! ## Untyped NFA model for the state-overlap checks (claim C6)

States are opaque identities; to talk about overlapping state sets of
two automata we model identities as natural numbers and carry the state
set `Q` explicitly, exactly as the 5-tuple does. -/

structure NFAu where
  Q : Finset ℕ
  S : Finset Char
  d : ℕ → Option Char → Finset ℕ
  q0 : ℕ
  F : Finset ℕ

namespace NFAu

/-- Membership of `(q, c)` in the transition dictionary of `n`: the
dictionaries built by the constructors have key set `Q × (S ∪ \x7b""\x7d)`. -/
def inDict (n : NFAu) (q : ℕ) : Option Char → Prop
  | none => q ∈ n.Q
  | some a => q ∈ n.Q ∧ a ∈ n.S

instance (n : NFAu) (q : ℕ) (c : Option Char) : Decidable (n.inDict q c) :=
  match c with
  | none => inferInstanceAs (Decidable (q ∈ n.Q))
  | some _ => inferInstanceAs (Decidable (_ ∧ _))

/-- The merged dictionary `d1[q, c] if (q, c) in d1 else d2[q, c] if
(q, c) in d2 else set()` used by `concat` and `union`. -/
def dictUnion (n1 n2 : NFAu) (q : ℕ) (c : Option Char) : Finset ℕ :=
  if n1.inDict q c then n1.d q c else if n2.inDict q c then n2.d q c else ∅

/-- A fresh state identity outside a given state set, modelling
`object()` allocation. -/
def freshState (s : Finset ℕ) : ℕ :=
  s.sup id + 1

inductive Err where
  | statesOverlap
deriving DecidableEq

/-- `NFA.concat` of the package revision (`src/regular/nfa.py` lines
115-138): raises `ValueError("states overlap")` when the state sets
intersect, otherwise merges the automata and adds an epsilon transition
from every accepting state of the first to the start of the second. -/
def concatChecked (n1 n2 : NFAu) : Except Err NFAu :=
  if (n1.Q ∩ n2.Q).Nonempty then .error .statesOverlap
  else .ok
    { Q := n1.Q ∪ n2.Q
      S := n1.S ∪ n2.S
      d := fun q c =>
        dictUnion n1 n2 q c ∪ (if q ∈ n1.F ∧ c = none then {n2.q0} else ∅)
      q0 := n1.q0
      F := n2.F }

/-- The common body of both revisions of `NFA.union`: fresh start state
with epsilon transitions to both old starts, accepting set the union. -/
def unionBody (n1 n2 : NFAu) : NFAu :=
  { Q := n1.Q ∪ n2.Q ∪ {freshState (n1.Q ∪ n2.Q)}
    S := n1.S ∪ n2.S
    d := fun q c =>
      dictUnion n1 n2 q c ∪
        (if q = freshState (n1.Q ∪ n2.Q) ∧ c = none then {n1.q0, n2.q0} else ∅)
    q0 := freshState (n1.Q ∪ n2.Q)
    F := n1.F ∪ n2.F }

/-- `NFA.union` of the package revision (`src/regular/nfa.py` lines
159-181): checks for overlapping state sets first. -/
def unionChecked (n1 n2 : NFAu) : Except Err NFAu :=
  if (n1.Q ∩ n2.Q).Nonempty then .error .statesOverlap
  else .ok (unionBody n1 n2)

/-- `NFA.union` of the top-level revision (`nfa.py` lines 129-152): the
same construction but with no disjointness check — it cannot raise. -/
def unionTop (n1 n2 : NFAu) : NFAu :=
  unionBody n1 n2

end NFAu

/-- The two overlapping NFAs of `tests/test_nfa.py`
`test_overlapping_states`: both use states `\x7b0, 1\x7d`. -/
def exNFAu1 : NFAu :=
  ⟨{0, 1}, {'a'}, fun q c => if q = 0 ∧ c = some 'a' then {1} else ∅, 0, {1}⟩

/-- Second overlapping NFA, over alphabet `b`, same state identities. -/
def exNFAu2 : NFAu :=
  ⟨{0, 1}, {'b'}, fun q c => if q = 0 ∧ c = some 'b' then {1} else ∅, 0, {1}⟩

/-- Claim C6 (code bug in the top-level revision).  On NFAs with
overlapping state sets, `concat` and `union` of the package revision
raise "states overlap", as the claim, the tests
(`tests/test_nfa.py::test_overlapping_states`) and the callers expect;
but `union` of the top-level `nfa.py` revision (also cited by the
claim) performs no disjointness check and silently returns a merged
automaton — here with state set `\x7b0, 1, 2\x7d` — even though its caller
`Regular.__or__` is written to catch `ValueError` and retry with
`copy()` (which does not even exist in that revision). -/
theorem overlap_check_divergence :
    (exNFAu1.Q ∩ exNFAu2.Q).Nonempty ∧
      exNFAu1.concatChecked exNFAu2 = .error .statesOverlap ∧
      exNFAu1.unionChecked exNFAu2 = .error .statesOverlap ∧
      (exNFAu1.unionTop exNFAu2).Q = {0, 1, 2} := by
  refine ⟨by decide, ?_, ?_, by decide⟩
  · unfold NFAu.concatChecked
    rw [if_pos (by decide)]
  · unfold NFAu.unionChecked
    rw [if_pos (by decide)]

/-! ## Reachability invariants and emptiness (claim C9) -/

namespace DFAm

variable {τ τ1 τ2 : Type} [DecidableEq τ] [DecidableEq τ1] [DecidableEq τ2]
variable [Fintype τ] [Fintype τ1] [Fintype τ2]

/-- `DFA.complement` (`src/regular/dfa.py` lines 116-131): same state
set, same symbol transitions, accepting set replaced by `Q - F`. -/
def complement (M : DFAm τ) : DFAm τ :=
  ⟨M.Q, M.S, M.delta, M.q0, M.Q \ M.F⟩

/-- Reachability along the DFA transition function over the alphabet. -/
def DReach (M : DFAm τ) : τ → τ → Prop :=
  Relation.ReflTransGen fun x y => ∃ c ∈ M.S, M.delta x c = y

/-- Every state of the DFA is reachable from its start state. -/
def AllReachable (M : DFAm τ) : Prop :=
  ∀ q ∈ M.Q, M.DReach M.q0 q

/-- Reachability along the product transition over the first operand's
alphabet (the alphabet the product worklist iterates over). -/
def PairReach (M1 : DFAm τ1) (M2 : DFAm τ2) : τ1 × τ2 → τ1 × τ2 → Prop :=
  Relation.ReflTransGen fun p p' => ∃ c ∈ M1.S, pairStep M1 M2 p c = p'

lemma reachablePairs_reachable (M1 : DFAm τ1) (M2 : DFAm τ2) :
    ∀ p ∈ reachablePairs M1 M2, PairReach M1 M2 (M1.q0, M2.q0) p := by
  refine iterClose_sound _ _ _ (fun p hp => ?_) ?_
  · rw [Finset.mem_singleton.mp hp]
    exact Relation.ReflTransGen.refl
  · intro T hT p hp
    rcases Finset.mem_biUnion.mp hp with ⟨p', hp', him⟩
    rcases Finset.mem_image.mp him with ⟨c, hc, hstep⟩
    exact (hT p' hp').tail ⟨c, hc, hstep⟩

/-- `DFA.is_empty` (`src/regular/dfa.py` lines 176-180): literally
`F == set()`, with no reachability pruning. -/
def isEmptyD (M : DFAm τ) : Prop :=
  M.F = ∅

end DFAm

namespace NFAm

variable {σ : Type} [DecidableEq σ] [Fintype σ]

/-- Reachability between subsets along the subset-construction
transition over the alphabet. -/
def SubsetReach (n : NFAm σ) : Finset σ → Finset σ → Prop :=
  Relation.ReflTransGen fun R R' => ∃ c ∈ n.S, n.dfaDelta R c = R'

lemma reachableSubsets_reachable (n : NFAm σ) :
    ∀ R ∈ n.reachableSubsets, n.SubsetReach n.dfaStart R := by
  refine iterClose_sound _ _ _ (fun R hR => ?_) ?_
  · rw [Finset.mem_singleton.mp hR]
    exact Relation.ReflTransGen.refl
  · intro T hT R hR
    rcases Finset.mem_biUnion.mp hR with ⟨R', hR', him⟩
    rcases Finset.mem_image.mp him with ⟨c, hc, hstep⟩
    exact (hT R' hR').tail ⟨c, hc, hstep⟩

/-- One expansion round of `NFA.__iter__` (`src/regular/nfa.py` lines
47-58): all successors over every symbol of the alphabet and epsilon. -/
def allStep (n : NFAm σ) (T : Finset σ) : Finset σ :=
  T.biUnion fun q => n.d q none ∪ n.S.biUnion fun c => n.d q (some c)

/-- The states visited by `NFA.__iter__`: everything reachable from the
start state via symbol or epsilon transitions. -/
def reachableStates (n : NFAm σ) : Finset σ :=
  iterClose n.allStep {n.q0}

/-- `NFA.is_empty` (`src/regular/nfa.py` lines 183-187): no state
reachable from the start is accepting. -/
def nfaIsEmpty (n : NFAm σ) : Prop :=
  ∀ q ∈ n.reachableStates, q ∉ n.F

/-- `is_empty` of the DFA produced by `DFA.from_NFA(n)`: its accepting
set (the accepting subsets among those discovered) is empty. -/
def dfaIsEmptyFromNFA (n : NFAm σ) : Prop :=
  ∀ R ∈ n.reachableSubsets, ¬ n.subsetAccepting R

lemma reaches_snoc_eps (n : NFAm σ) {q p r : σ} {w : List Char}
    (h : Reaches n q w p) (hr : r ∈ n.d p none) : Reaches n q w r := by
  induction h with
  | refl => exact Reaches.eps hr (Reaches.refl _)
  | eps hstep _ ih => exact Reaches.eps hstep (ih hr)
  | sym hstep _ ih => exact Reaches.sym hstep (ih hr)

lemma reaches_snoc_sym (n : NFAm σ) {q p r : σ} {w : List Char} {c : Char}
    (h : Reaches n q w p) (hr : r ∈ n.d p (some c)) :
    Reaches n q (w ++ [c]) r := by
  induction h with
  | refl => exact Reaches.sym hr (Reaches.refl _)
  | eps hstep _ ih => exact Reaches.eps hstep (ih hr)
  | sym hstep _ ih => exact Reaches.sym hstep (ih hr)

lemma reachableStates_sound (n : NFAm σ) :
    ∀ q ∈ n.reachableStates, ∃ w : List Char,
      (∀ c ∈ w, c ∈ n.S) ∧ Reaches n n.q0 w q := by
  refine iterClose_sound _ _ _ (fun q hq => ?_) ?_
  · rw [Finset.mem_singleton.mp hq]
    exact ⟨[], by simp, Reaches.refl _⟩
  · intro T hT q hq
    rcases Finset.mem_biUnion.mp hq with ⟨p, hp, hmem⟩
    rcases hT p hp with ⟨w, hw, hr⟩
    rcases Finset.mem_union.mp hmem with heps | hsym
    · exact ⟨w, hw, n.reaches_snoc_eps hr heps⟩
    · rcases Finset.mem_biUnion.mp hsym with ⟨c, hc, hqc⟩
      refine ⟨w ++ [c], ?_, n.reaches_snoc_sym hr hqc⟩
      intro c' hc'
      rcases List.mem_append.mp hc' with h | h
      · exact hw c' h
      · rwa [List.mem_singleton.mp h]

lemma reachableStates_closed_eps (n : NFAm σ) {q r : σ}
    (hq : q ∈ n.reachableStates) (hr : r ∈ n.d q none) :
    r ∈ n.reachableStates := by
  refine apply_iterClose_subset n.allStep _ ?_
  exact Finset.mem_biUnion.mpr ⟨q, hq, Finset.mem_union_left _ hr⟩

lemma reachableStates_closed_sym (n : NFAm σ) {q r : σ} {c : Char}
    (hq : q ∈ n.reachableStates) (hc : c ∈ n.S)
    (hr : r ∈ n.d q (some c)) : r ∈ n.reachableStates := by
  refine apply_iterClose_subset n.allStep _ ?_
  refine Finset.mem_biUnion.mpr ⟨q, hq, Finset.mem_union_right _ ?_⟩
  exact Finset.mem_biUnion.mpr ⟨c, hc, hr⟩

lemma reaches_mem_reachableStates (n : NFAm σ) {q p : σ} {w : List Char}
    (h : Reaches n q w p) (hw : ∀ c ∈ w, c ∈ n.S)
    (hq : q ∈ n.reachableStates) : p ∈ n.reachableStates := by
  induction h with
  | refl => exact hq
  | eps hstep _ ih => exact ih hw (n.reachableStates_closed_eps hq hstep)
  | sym hstep _ ih =>
    refine ih (fun c' hc' => hw c' (List.mem_cons_of_mem _ hc')) ?_
    exact n.reachableStates_closed_sym hq
      (hw _ (List.mem_cons_self _ _)) hstep

lemma q0_mem_reachableStates (n : NFAm σ) : n.q0 ∈ n.reachableStates :=
  subset_iterClose _ _ (Finset.mem_singleton_self _)

lemma reachableSubsets_sound_word (n : NFAm σ) :
    ∀ R ∈ n.reachableSubsets, ∃ w : List Char,
      (∀ c ∈ w, c ∈ n.S) ∧ w.foldl n.dfaDelta n.dfaStart = R := by
  refine iterClose_sound _ _ _ (fun R hR => ?_) ?_
  · exact ⟨[], by simp, by simp [Finset.mem_singleton.mp hR]⟩
  · intro T hT R hR
    rcases Finset.mem_biUnion.mp hR with ⟨R', hR', him⟩
    rcases Finset.mem_image.mp him with ⟨c, hc, hstep⟩
    rcases hT R' hR' with ⟨w, hw, hfold⟩
    refine ⟨w ++ [c], ?_, ?_⟩
    · intro c' hc'
      rcases List.mem_append.mp hc' with h | h
      · exact hw c' h
      · rwa [List.mem_singleton.mp h]
    · rw [List.foldl_append, hfold]
      simpa using hstep

end NFAm

/-- Claim C9.  Every DFA produced by `DFA.from_NFA` and the product
construction has all of its states reachable from its start state, and
`complement` preserves all-states-reachable (it keeps the state set,
transitions and start state); consequently `DFA.is_empty`, implemented
as `F == set()` without reachability pruning, agrees with the full
reachability traversal of `NFA.is_empty`: the constructed DFA's
accepting set is empty iff no accepting state of the NFA is reachable
from its start state. -/
theorem is_empty_reachability {σ τ τ1 τ2 : Type} [DecidableEq σ] [Fintype σ]
    [DecidableEq τ] [Fintype τ] [DecidableEq τ1] [Fintype τ1]
    [DecidableEq τ2] [Fintype τ2]
    (n : NFAm σ) (M : DFAm τ) (M1 : DFAm τ1) (M2 : DFAm τ2) :
    (∀ R ∈ n.reachableSubsets, n.SubsetReach n.dfaStart R) ∧
      (M.AllReachable → M.complement.AllReachable) ∧
      (∀ p ∈ DFAm.reachablePairs M1 M2,
        DFAm.PairReach M1 M2 (M1.q0, M2.q0) p) ∧
      (n.dfaIsEmptyFromNFA ↔ n.nfaIsEmpty) := by
  refine ⟨n.reachableSubsets_reachable, fun h => h,
    DFAm.reachablePairs_reachable M1 M2, ?_, ?_⟩
  · intro hD q hq hqF
    rcases n.reachableStates_sound q hq with ⟨w, hw, hr⟩
    have hacc : n.Accepts w := ⟨q, hqF, hr⟩
    have hdfa : n.dfaAccepts w := (n.dfaAccepts_iff_accepts w).mpr hacc
    have hmem : w.foldl n.dfaDelta n.dfaStart ∈ n.reachableSubsets :=
      n.foldl_dfaDelta_mem_reachableSubsets w _ n.dfaStart_mem_reachableSubsets hw
    exact hD _ hmem hdfa
  · intro hN R hR hacc
    rcases n.reachableSubsets_sound_word R hR with ⟨w, hw, hfold⟩
    rcases hacc with ⟨f, hf⟩
    rcases Finset.mem_inter.mp hf with ⟨hfR, hfF⟩
    rw [← hfold] at hfR
    rcases (n.foldl_dfaDelta_mem w n.dfaStart (n.E_isClosed _) f).mp hfR
      with ⟨q, hq, hreach⟩
    have hq0 : n.EpsReach n.q0 q := by
      rcases n.mem_E_iff.mp hq with ⟨q0', hq0', h⟩
      rwa [Finset.mem_singleton.mp hq0'] at h
    have hr : NFAm.Reaches n n.q0 w f := n.epsReach_reaches hq0 hreach
    exact hN f (n.reaches_mem_reachableStates hr hw n.q0_mem_reachableStates) hfF

/-- Witness for C9: instantiated at the concrete automata; the
complement part's all-states-reachable hypothesis is discharged for the
one-state DFA `exampleDFA1`. -/
theorem is_empty_reachability_witness :
    exampleNFA.SubsetReach exampleNFA.dfaStart exampleNFA.dfaStart ∧
      exampleDFA1.complement.AllReachable ∧
      (exampleNFA.dfaIsEmptyFromNFA ↔ exampleNFA.nfaIsEmpty) := by
  have h := is_empty_reachability exampleNFA exampleDFA1 exampleDFA1 exampleDFA2
  have hall : exampleDFA1.AllReachable := by
    intro q _
    rw [Subsingleton.elim q exampleDFA1.q0]
    exact Relation.ReflTransGen.refl
  exact ⟨h.1 exampleNFA.dfaStart exampleNFA.dfaStart_mem_reachableSubsets,
    h.2.1 hall, h.2.2.2⟩

/-! ## `NFA.union`, `NFA.from_alphabet` and `Regular.from_finite`
(claim C4)

`Regular.from_finite` (`regular.py` lines 44-54) starts from
`NFA.from_alphabet(set())` and unions in `NFA.from_string(s)` for each
string `s` of the language, then determinises and answers membership
through `DFA.accept`.  The `object()` states allocated by each
constructor are globally fresh, so the operands of every `union` are
disjoint; we realise that disjointness with a sum type plus a fresh
`none` start state. -/

namespace NFAm

variable {σ1 σ2 : Type} [DecidableEq σ1] [DecidableEq σ2]
variable [Fintype σ1] [Fintype σ2]

/-- The merged transition dictionary built by `NFA.union` (`nfa.py`
lines 141-149): each operand keeps its entries (a key `(q, c)` is in
operand `i`'s dictionary iff `q ∈ Qi` and `c ∈ Si ∪ \x7b""\x7d`, modelled by
the alphabet guards), and the fresh start state `none` gets epsilon
transitions to both old starts. -/
def unionD (n1 : NFAm σ1) (n2 : NFAm σ2) :
    Option (σ1 ⊕ σ2) → Option Char → Finset (Option (σ1 ⊕ σ2))
  | none, none => {some (Sum.inl n1.q0), some (Sum.inr n2.q0)}
  | none, some _ => ∅
  | some (Sum.inl q), none => (n1.d q none).image fun r => some (Sum.inl r)
  | some (Sum.inl q), some c =>
    if c ∈ n1.S then (n1.d q (some c)).image fun r => some (Sum.inl r)
    else ∅
  | some (Sum.inr q), none => (n2.d q none).image fun r => some (Sum.inr r)
  | some (Sum.inr q), some c =>
    if c ∈ n2.S then (n2.d q (some c)).image fun r => some (Sum.inr r)
    else ∅

/-- `NFA.union` (`nfa.py` lines 129-152) on disjoint state sets: a
fresh start state (`none`) with epsilon transitions to both old starts;
accepting set is the union of both accepting sets. -/
def unionN (n1 : NFAm σ1) (n2 : NFAm σ2) : NFAm (Option (σ1 ⊕ σ2)) where
  S := n1.S ∪ n2.S
  d := unionD n1 n2
  q0 := none
  F := (n1.F.image fun q => some (Sum.inl q)) ∪
    (n2.F.image fun q => some (Sum.inr q))

lemma unionN_d (n1 : NFAm σ1) (n2 : NFAm σ2) :
    (unionN n1 n2).d = unionD n1 n2 :=
  rfl

lemma unionN_q0 (n1 : NFAm σ1) (n2 : NFAm σ2) :
    (unionN n1 n2).q0 = none :=
  rfl

end NFAm

namespace NFAm

variable {σ : Type} [DecidableEq σ] [Fintype σ]

/-- `NFA.from_alphabet` (`nfa.py` lines 62-79): a fresh start state
(`none`) with one transition per alphabet symbol to a fresh accepting
state for that symbol. -/
def fromAlphabet (A : Finset Char) : NFAm (Option {c : Char // c ∈ A}) where
  S := A
  d q c :=
    match q, c with
    | none, some a => if h : a ∈ A then {some ⟨a, h⟩} else ∅
    | _, _ => ∅
  q0 := none
  F := A.attach.image fun c => some c

lemma fromString_wf (w : List Char) : (fromString w).WF := by
  intro q c hc
  have hcS : c ∉ w.toFinset := hc
  unfold fromString
  dsimp only
  split
  · rw [if_neg]
    intro hget
    exact hcS (List.mem_toFinset.mpr (hget ▸ List.get_mem w _ _))
  · rfl

lemma fromAlphabet_wf (A : Finset Char) : (fromAlphabet A).WF := by
  intro q c hc
  match q with
  | none => exact dif_neg hc
  | some _ => rfl

end NFAm

namespace NFAm

variable {σ1 σ2 : Type} [DecidableEq σ1] [DecidableEq σ2]
variable [Fintype σ1] [Fintype σ2]

lemma unionN_wf (n1 : NFAm σ1) (n2 : NFAm σ2) (h1 : n1.WF) (h2 : n2.WF) :
    (unionN n1 n2).WF := by
  intro q c hc
  have hc1 : c ∉ n1.S := fun h => hc (Finset.mem_union_left _ h)
  have hc2 : c ∉ n2.S := fun h => hc (Finset.mem_union_right _ h)
  rw [unionN_d]
  match q with
  | none => rfl
  | some (Sum.inl q) => rw [unionD]; exact if_neg hc1
  | some (Sum.inr q) => rw [unionD]; exact if_neg hc2

lemma unionN_lift_inl (n1 : NFAm σ1) (n2 : NFAm σ2) (h1 : n1.WF)
    {q p : σ1} {w : List Char} (h : Reaches n1 q w p) :
    Reaches (unionN n1 n2) (some (Sum.inl q)) w (some (Sum.inl p)) := by
  induction h with
  | refl => exact Reaches.refl _
  | eps hstep _ ih =>
    exact Reaches.eps (Finset.mem_image_of_mem _ hstep) ih
  | @sym q' r' p' c' w' hstep hrest ih =>
    have hc : c' ∈ n1.S := by
      by_contra hcn
      rw [h1 q' c' hcn] at hstep
      exact absurd hstep (Finset.not_mem_empty _)
    refine Reaches.sym ?_ ih
    show _ ∈ (unionN n1 n2).d (some (Sum.inl q')) (some c')
    rw [unionN_d, unionD, if_pos hc]
    exact Finset.mem_image_of_mem _ hstep

lemma unionN_lift_inr (n1 : NFAm σ1) (n2 : NFAm σ2) (h2 : n2.WF)
    {q p : σ2} {w : List Char} (h : Reaches n2 q w p) :
    Reaches (unionN n1 n2) (some (Sum.inr q)) w (some (Sum.inr p)) := by
  induction h with
  | refl => exact Reaches.refl _
  | eps hstep _ ih =>
    exact Reaches.eps (Finset.mem_image_of_mem _ hstep) ih
  | @sym q' r' p' c' w' hstep hrest ih =>
    have hc : c' ∈ n2.S := by
      by_contra hcn
      rw [h2 q' c' hcn] at hstep
      exact absurd hstep (Finset.not_mem_empty _)
    refine Reaches.sym ?_ ih
    show _ ∈ (unionN n1 n2).d (some (Sum.inr q')) (some c')
    rw [unionN_d, unionD, if_pos hc]
    exact Finset.mem_image_of_mem _ hstep

lemma unionN_proj_inl (n1 : NFAm σ1) (n2 : NFAm σ2)
    {s : Option (σ1 ⊕ σ2)} {w : List Char} {x : Option (σ1 ⊕ σ2)}
    (h : Reaches (unionN n1 n2) s w x) :
    ∀ q : σ1, s = some (Sum.inl q) →
      ∃ p : σ1, x = some (Sum.inl p) ∧ Reaches n1 q w p := by
  induction h with
  | refl => exact fun q hq => ⟨q, hq, Reaches.refl q⟩
  | eps hstep _ ih =>
    intro q hq
    subst hq
    rw [unionN_d, unionD] at hstep
    rcases Finset.mem_image.mp hstep with ⟨r1, hr1, hr1eq⟩
    rcases ih r1 hr1eq.symm with ⟨p, hp, hreach⟩
    exact ⟨p, hp, Reaches.eps hr1 hreach⟩
  | @sym s' r' p' c' w' hstep hrest ih =>
    intro q hq
    subst hq
    rw [unionN_d, unionD] at hstep
    by_cases hc : c' ∈ n1.S
    · rw [if_pos hc] at hstep
      rcases Finset.mem_image.mp hstep with ⟨r1, hr1, hr1eq⟩
      rcases ih r1 hr1eq.symm with ⟨p, hp, hreach⟩
      exact ⟨p, hp, Reaches.sym hr1 hreach⟩
    · rw [if_neg hc] at hstep
      exact absurd hstep (Finset.not_mem_empty _)

lemma unionN_proj_inr (n1 : NFAm σ1) (n2 : NFAm σ2)
    {s : Option (σ1 ⊕ σ2)} {w : List Char} {x : Option (σ1 ⊕ σ2)}
    (h : Reaches (unionN n1 n2) s w x) :
    ∀ q : σ2, s = some (Sum.inr q) →
      ∃ p : σ2, x = some (Sum.inr p) ∧ Reaches n2 q w p := by
  induction h with
  | refl => exact fun q hq => ⟨q, hq, Reaches.refl q⟩
  | eps hstep _ ih =>
    intro q hq
    subst hq
    rw [unionN_d, unionD] at hstep
    rcases Finset.mem_image.mp hstep with ⟨r1, hr1, hr1eq⟩
    rcases ih r1 hr1eq.symm with ⟨p, hp, hreach⟩
    exact ⟨p, hp, Reaches.eps hr1 hreach⟩
  | @sym s' r' p' c' w' hstep hrest ih =>
    intro q hq
    subst hq
    rw [unionN_d, unionD] at hstep
    by_cases hc : c' ∈ n2.S
    · rw [if_pos hc] at hstep
      rcases Finset.mem_image.mp hstep with ⟨r1, hr1, hr1eq⟩
      rcases ih r1 hr1eq.symm with ⟨p, hp, hreach⟩
      exact ⟨p, hp, Reaches.sym hr1 hreach⟩
    · rw [if_neg hc] at hstep
      exact absurd hstep (Finset.not_mem_empty _)

lemma unionN_accepts_iff (n1 : NFAm σ1) (n2 : NFAm σ2) (h1 : n1.WF)
    (h2 : n2.WF) (w : List Char) :
    (unionN n1 n2).Accepts w ↔ n1.Accepts w ∨ n2.Accepts w := by
  constructor
  · rintro ⟨f, hf, hr⟩
    cases hr with
    | refl =>
      rcases Finset.mem_union.mp hf with h | h <;>
        · rcases Finset.mem_image.mp h with ⟨f', _, hf'⟩
          exact absurd hf'.symm (Option.noConfusion)
    | eps hstep hrest =>
      rename_i r'
      have hstep2 : r' ∈ ({some (Sum.inl n1.q0), some (Sum.inr n2.q0)} :
          Finset (Option (σ1 ⊕ σ2))) := hstep
      have hr' : r' = some (Sum.inl n1.q0) ∨ r' = some (Sum.inr n2.q0) := by
        rcases Finset.mem_insert.mp hstep2 with h | h
        · exact Or.inl h
        · exact Or.inr (Finset.mem_singleton.mp h)
      rcases hr' with h | h
      · subst h
        rcases unionN_proj_inl n1 n2 hrest n1.q0 rfl with ⟨p, hp, hreach⟩
        subst hp
        rcases Finset.mem_union.mp hf with hmem | hmem
        · rcases Finset.mem_image.mp hmem with ⟨f1, hf1, hf1eq⟩
          have heq : f1 = p := by
            simpa using hf1eq
          subst heq
          exact Or.inl ⟨f1, hf1, hreach⟩
        · rcases Finset.mem_image.mp hmem with ⟨f2, _, hf2eq⟩
          simp at hf2eq
      · subst h
        rcases unionN_proj_inr n1 n2 hrest n2.q0 rfl with ⟨p, hp, hreach⟩
        subst hp
        rcases Finset.mem_union.mp hf with hmem | hmem
        · rcases Finset.mem_image.mp hmem with ⟨f1, _, hf1eq⟩
          simp at hf1eq
        · rcases Finset.mem_image.mp hmem with ⟨f2, hf2, hf2eq⟩
          have heq : f2 = p := by
            simpa using hf2eq
          subst heq
          exact Or.inr ⟨f2, hf2, hreach⟩
    | sym hstep hrest =>
      exact absurd (hstep : _ ∈ (∅ : Finset (Option (σ1 ⊕ σ2))))
        (Finset.not_mem_empty _)
  · rintro (⟨f, hf, hr⟩ | ⟨f, hf, hr⟩)
    · refine ⟨some (Sum.inl f),
        Finset.mem_union_left _ (Finset.mem_image_of_mem _ hf), ?_⟩
      refine Reaches.eps ?_ (unionN_lift_inl n1 n2 h1 hr)
      show _ ∈ (unionN n1 n2).d none none
      rw [unionN_d, unionD]
      exact Finset.mem_insert_self _ _
    · refine ⟨some (Sum.inr f),
        Finset.mem_union_right _ (Finset.mem_image_of_mem _ hf), ?_⟩
      refine Reaches.eps ?_ (unionN_lift_inr n1 n2 h2 hr)
      show _ ∈ (unionN n1 n2).d none none
      rw [unionN_d, unionD]
      exact Finset.mem_insert.mpr (Or.inr (Finset.mem_singleton_self _))

end NFAm

namespace NFAm

variable {σ : Type} [DecidableEq σ] [Fintype σ]

lemma fromString_d_none (w : List Char) (q : Fin (w.length + 1)) :
    (fromString w).d q none = ∅ :=
  rfl

lemma fromString_epsReach {w : List Char} {q p : Fin (w.length + 1)}
    (h : (fromString w).EpsReach q p) : q = p := by
  induction h with
  | refl => rfl
  | tail _ hstep ih =>
    exact absurd (hstep : _ ∈ (∅ : Finset (Fin (w.length + 1))))
      (Finset.not_mem_empty _)

lemma fromString_d_some {w : List Char} {q r : Fin (w.length + 1)}
    {a : Char} : r ∈ (fromString w).d q (some a) ↔
      ∃ h : (q : ℕ) < w.length, w.get ⟨(q : ℕ), h⟩ = a ∧
        (r : ℕ) = (q : ℕ) + 1 := by
  unfold fromString
  dsimp only
  split
  · rename_i h
    split
    · rename_i hget
      rw [Finset.mem_singleton]
      constructor
      · intro hr
        exact ⟨h, hget, by rw [hr]⟩
      · rintro ⟨h', _, hr⟩
        exact Fin.ext hr
    · rename_i hget
      simp only [Finset.not_mem_empty, false_iff]
      rintro ⟨h', hget', _⟩
      exact hget hget'
  · rename_i h
    simp only [Finset.not_mem_empty, false_iff]
    rintro ⟨h', _, _⟩
    exact h h'

lemma fromString_reaches_last (w : List Char) :
    ∀ (v : List Char) (i : Fin (w.length + 1)),
      Reaches (fromString w) i v (Fin.last w.length) ↔ v = w.drop (i : ℕ) := by
  intro v
  induction v with
  | nil =>
    intro i
    rw [(fromString w).reaches_nil_iff]
    constructor
    · intro h
      rw [fromString_epsReach h, Fin.val_last, List.drop_length]
    · intro h
      have hlen : w.length ≤ (i : ℕ) := by
        by_contra hlt
        push_neg at hlt
        rw [List.drop_eq_getElem_cons hlt] at h
        exact List.noConfusion h
      have hi : i = Fin.last w.length := by
        apply Fin.ext
        rw [Fin.val_last]
        omega
      rw [hi]
      exact Relation.ReflTransGen.refl
  | cons c v ih =>
    intro i
    rw [(fromString w).reaches_cons_iff]
    constructor
    · rintro ⟨q', r, heps, hd, hrest⟩
      rw [← fromString_epsReach heps] at hd
      rcases fromString_d_some.mp hd with ⟨h, hget, hr⟩
      have hv := (ih r).mp hrest
      rw [hr] at hv
      rw [List.drop_eq_getElem_cons h, ← hv]
      have hgc : w[(i : ℕ)] = c :=
        (List.get_eq_getElem w ⟨(i : ℕ), h⟩).symm.trans hget
      rw [hgc]
    · intro h
      have hlt : (i : ℕ) < w.length := by
        by_contra hge
        push_neg at hge
        rw [List.drop_eq_nil_of_le hge] at h
        exact List.noConfusion h
      rw [List.drop_eq_getElem_cons hlt] at h
      rcases List.cons.injEq .. ▸ h with ⟨hc, hv⟩
      refine ⟨i, ⟨(i : ℕ) + 1, by omega⟩, Relation.ReflTransGen.refl, ?_, ?_⟩
      · refine fromString_d_some.mpr ⟨hlt, ?_, rfl⟩
        exact (List.get_eq_getElem w ⟨(i : ℕ), hlt⟩).trans hc.symm
      · exact (ih _).mpr hv

lemma fromString_accepts_iff (w v : List Char) :
    (fromString w).Accepts v ↔ v = w := by
  unfold Accepts
  constructor
  · rintro ⟨f, hf, hr⟩
    have hflast : f = Fin.last w.length := Finset.mem_singleton.mp hf
    subst hflast
    have := (fromString_reaches_last w v _).mp hr
    simpa using this
  · intro h
    refine ⟨Fin.last w.length, Finset.mem_singleton_self _, ?_⟩
    refine (fromString_reaches_last w v _).mpr ?_
    simpa using h

lemma fromAlphabet_empty_not_accepts (v : List Char) :
    ¬ (fromAlphabet ∅).Accepts v := by
  rintro ⟨f, hf, _⟩
  revert hf
  show f ∉ (fromAlphabet ∅).F
  unfold fromAlphabet
  simp

end NFAm

/-! ## Packaged NFAs and `Regular.from_finite` -/

/-- An NFA packaged with its state type, so that the growing unions of
`Regular.from_finite` can be folded over a list of strings. -/
structure PNFA where
  σ : Type
  [deq : DecidableEq σ]
  [fin : Fintype σ]
  nfa : NFAm σ

attribute [instance] PNFA.deq PNFA.fin

namespace PNFA

/-- Direct-simulation acceptance of a packaged NFA. -/
def AcceptsP (p : PNFA) (w : List Char) : Prop :=
  p.nfa.Accepts w

/-- Well-formedness of a packaged NFA's dictionary. -/
def WFP (p : PNFA) : Prop :=
  p.nfa.WF

/-- `NFA.union` on packaged NFAs. -/
def unionP (p1 p2 : PNFA) : PNFA :=
  { σ := Option (p1.σ ⊕ p2.σ), nfa := NFAm.unionN p1.nfa p2.nfa }

lemma unionP_wfp (p1 p2 : PNFA) (h1 : p1.WFP) (h2 : p2.WFP) :
    (p1.unionP p2).WFP :=
  NFAm.unionN_wf _ _ h1 h2

lemma unionP_acceptsP (p1 p2 : PNFA) (h1 : p1.WFP) (h2 : p2.WFP)
    (w : List Char) :
    (p1.unionP p2).AcceptsP w ↔ p1.AcceptsP w ∨ p2.AcceptsP w :=
  NFAm.unionN_accepts_iff _ _ h1 h2 w

end PNFA

/-- `NFA.from_string` as a packaged NFA. -/
def pFromString (w : List Char) : PNFA :=
  { σ := Fin (w.length + 1), nfa := NFAm.fromString w }

/-- `NFA.from_alphabet` as a packaged NFA. -/
def pFromAlphabet (A : Finset Char) : PNFA :=
  { σ := Option {c : Char // c ∈ A}, nfa := NFAm.fromAlphabet A }

lemma pFromString_wfp (w : List Char) : (pFromString w).WFP :=
  NFAm.fromString_wf w

lemma pFromAlphabet_wfp (A : Finset Char) : (pFromAlphabet A).WFP :=
  NFAm.fromAlphabet_wf A

lemma pFromString_acceptsP (w v : List Char) :
    (pFromString w).AcceptsP v ↔ v = w :=
  NFAm.fromString_accepts_iff w v

lemma pFromAlphabet_empty_not_acceptsP (v : List Char) :
    ¬ (pFromAlphabet ∅).AcceptsP v :=
  NFAm.fromAlphabet_empty_not_accepts v

/-- The NFA built by `Regular.from_finite` (`regular.py` lines 44-54):
starting from `NFA.from_alphabet(set())`, union in `NFA.from_string(s)`
for every string `s` of the (finite) language. -/
def fromFiniteNfa (L : List (List Char)) : PNFA :=
  L.foldl (fun acc s => acc.unionP (pFromString s)) (pFromAlphabet ∅)

lemma fromFinite_aux (L : List (List Char)) :
    ∀ acc : PNFA, acc.WFP →
      (L.foldl (fun a s => a.unionP (pFromString s)) acc).WFP ∧
      ∀ v, (L.foldl (fun a s => a.unionP (pFromString s)) acc).AcceptsP v ↔
        acc.AcceptsP v ∨ v ∈ L := by
  induction L with
  | nil =>
    intro acc hacc
    exact ⟨hacc, fun v => by simp⟩
  | cons s L ih =>
    intro acc hacc
    have hwf : (acc.unionP (pFromString s)).WFP :=
      PNFA.unionP_wfp _ _ hacc (pFromString_wfp s)
    rcases ih _ hwf with ⟨hWF, hAcc⟩
    refine ⟨hWF, fun v => ?_⟩
    simp only [List.foldl_cons] at hAcc ⊢
    rw [hAcc v, PNFA.unionP_acceptsP acc (pFromString s) hacc (pFromString_wfp s) v]
    rw [pFromString_acceptsP s v, List.mem_cons]
    tauto

lemma fromFiniteNfa_wf (L : List (List Char)) : (fromFiniteNfa L).WFP :=
  (fromFinite_aux L _ (pFromAlphabet_wfp ∅)).1

lemma fromFiniteNfa_accepts (L : List (List Char)) (v : List Char) :
    (fromFiniteNfa L).AcceptsP v ↔ v ∈ L := by
  rw [fromFiniteNfa, (fromFinite_aux L _ (pFromAlphabet_wfp ∅)).2 v]
  have := pFromAlphabet_empty_not_acceptsP v
  tauto

/-- `DFA.accept` as actually executed by `Regular.__contains__`
(`regular.py` lines 56-59 and `dfa.py` lines 119-129): the walk looks
up `d[q, c]` for each character; a character outside the DFA's alphabet
is a missing dictionary key, so the call raises `KeyError` (modelled as
`none`) instead of returning a boolean. -/
def NFAm.dfaAcceptChecked {σ : Type} [DecidableEq σ] [Fintype σ]
    (n : NFAm σ) (w : List Char) : Option Bool :=
  if ∀ c ∈ w, c ∈ n.S then some (decide (n.dfaAccepts w)) else none

/-- Counterexample to claim C4 as stated.  The claim quantifies over
every string `w`: membership should answer `w ∈ L`.  But for
`L = \x7b"a"\x7d` and `w' = "b"`, the membership test raises `KeyError`
(the walk looks up the missing key `(q0, 'b')` in the transition
dictionary) instead of returning `False`: it does not evaluate to the
boolean `decide (w' ∈ L)`. -/
theorem from_finite_membership_cex :
    (fromFiniteNfa [['a']]).nfa.dfaAcceptChecked ['b'] = none ∧
      (fromFiniteNfa [['a']]).nfa.dfaAcceptChecked ['b'] ≠
        some (decide ((['b'] : List Char) ∈ [['a']])) := by
  constructor
  · unfold NFAm.dfaAcceptChecked
    rw [if_neg]
    intro h
    exact absurd (h 'b' (List.mem_singleton_self 'b')) (by decide)
  · intro h
    rw [NFAm.dfaAcceptChecked, if_neg] at h
    · exact Option.noConfusion h
    · intro h2
      exact absurd (h2 'b' (List.mem_singleton_self 'b')) (by decide)

/-- Claim C4 (amended).  For every finite language `L` and every string
`w` whose characters all lie in the alphabet of `Regular.from_finite(L)`
(the characters occurring in strings of `L`), the membership test
returns exactly `w ∈ L`; for a string with a character outside that
alphabet the test raises `KeyError` instead of returning `False` (see
the counterexample). -/
theorem from_finite_membership (L : List (List Char)) (w : List Char)
    (hw : ∀ c ∈ w, c ∈ (fromFiniteNfa L).nfa.S) :
    (fromFiniteNfa L).nfa.dfaAcceptChecked w = some (decide (w ∈ L)) ∧
      ((fromFiniteNfa L).nfa.dfaAcceptChecked w = some true ↔ w ∈ L) := by
  have hacc : (fromFiniteNfa L).nfa.dfaAccepts w ↔ w ∈ L := by
    rw [NFAm.dfaAccepts_iff_accepts]
    exact fromFiniteNfa_accepts L w
  constructor
  · unfold NFAm.dfaAcceptChecked
    rw [if_pos hw]
    exact congrArg some (decide_eq_decide.mpr hacc)
  · unfold NFAm.dfaAcceptChecked
    rw [if_pos hw]
    simp only [Option.some.injEq, decide_eq_true_eq]
    exact hacc

/-- Witness for C4 (amended): instantiated at `L = \x7b"a"\x7d` and the
in-alphabet string `"a"`. -/
theorem from_finite_membership_witness :
    (∀ c ∈ ['a'], c ∈ (fromFiniteNfa [['a']]).nfa.S) ∧
      ((fromFiniteNfa [['a']]).nfa.dfaAcceptChecked ['a'] = some true ↔
        (['a'] : List Char) ∈ [['a']]) :=
  ⟨by decide, (from_finite_membership [['a']] ['a'] (by decide)).2⟩

/-! ## Lexer, parser and AST evaluator (`regular.py`, claims C7, C8,
C10)

The lexer (`Lexer.next_token`, lines 139-192) consumes one character at
a time; once the input is exhausted every further call returns `END`,
so the token stream is the finite list produced here followed by an
implicit infinite `END` tail (realised by `pNext` on the empty list).
The parser's `while` loops and the recursion through parenthesised
expressions are bounded by a fuel parameter; running out of fuel is the
distinct artefact error `noFuel`, which a real execution (with fuel
larger than the token count) never hits. -/

inductive TokType where
  | dot | star | plus | question | union | lParen | rParen
  | lBracket | rBracket | symbol | tEnd | tError
deriving DecidableEq

structure Tok where
  ty : TokType
  lexeme : String
deriving DecidableEq

/-- The `CHAR_TOKENS` table of `Lexer.next_token` (lines 160-170). -/
def charTokType (c : Char) : Option TokType :=
  if c = '.' then some TokType.dot
  else if c = '*' then some TokType.star
  else if c = '+' then some TokType.plus
  else if c = '?' then some TokType.question
  else if c = '|' then some TokType.union
  else if c = '(' then some TokType.lParen
  else if c = ')' then some TokType.rParen
  else if c = '[' then some TokType.lBracket
  else if c = ']' then some TokType.rBracket
  else none

/-- The whole token stream of a regex source (`Lexer.next_token` called
to exhaustion): operator characters map to their unit tokens, `\\`
escapes the next character into a SYMBOL (a dangling escape is the
ERROR token), anything else is a SYMBOL. -/
def lexAll : List Char → List Tok
  | [] => []
  | c :: rest =>
    match charTokType c with
    | some t => ⟨t, String.mk [c]⟩ :: lexAll rest
    | none =>
      if c = '\\' then
        match rest with
        | [] => [⟨TokType.tError, ""⟩]
        | d :: rest2 => ⟨TokType.symbol, String.mk [d]⟩ :: lexAll rest2
      else ⟨TokType.symbol, String.mk [c]⟩ :: lexAll rest

inductive ROp where
  | union | concat | star | plus | question
deriving DecidableEq

/-- `Node` (`regular.py` lines 195-219): an operator with optional
children, or a token leaf.  Exponent nodes are built with no children
and get their left child assigned afterwards (`_parse_factor`). -/
inductive RNode where
  | op (o : ROp) (left : Option RNode) (right : Option RNode)
  | leaf (t : Tok)

/-- `exponent.left = expr` in `_parse_factor` (line 338). -/
def setLeft : RNode → RNode → RNode
  | RNode.op o _ r, l => RNode.op o (some l) r
  | RNode.leaf t, _ => RNode.leaf t

/-- `Parser` state: the remaining token stream and the single-token
pushback slot `_pushback`. -/
structure PSt where
  toks : List Tok
  pb : Option Tok
deriving DecidableEq

inductive PErr where
  | missingTerm | missingAfterUnion | missingRParen | pushbackErr | noFuel
deriving DecidableEq

/-- `Parser._next_token` (lines 270-275): take the pushback if present,
else the next lexer token (`END` forever once exhausted). -/
def pNext (st : PSt) : Tok × PSt :=
  match st.pb with
  | some t => (t, ⟨st.toks, none⟩)
  | none =>
    match st.toks with
    | [] => (⟨TokType.tEnd, ""⟩, ⟨[], none⟩)
    | t :: ts => (t, ⟨ts, none⟩)

/-- `Parser._pushback_token` (lines 277-281): store the token if the
slot is free, otherwise raise the internal "pushback error". -/
def pPush (t : Tok) (st : PSt) : Except PErr PSt :=
  match st.pb with
  | none => Except.ok ⟨st.toks, some t⟩
  | some _ => Except.error PErr.pushbackErr

/-- `Parser._parse_exponent` (lines 343-355). -/
def parseExponent (st : PSt) : Except PErr (Option RNode × PSt) :=
  let (tok, st1) := pNext st
  match tok.ty with
  | TokType.star => Except.ok (some (RNode.op ROp.star none none), st1)
  | TokType.plus => Except.ok (some (RNode.op ROp.plus none none), st1)
  | TokType.question =>
    Except.ok (some (RNode.op ROp.question none none), st1)
  | _ =>
    match pPush tok st1 with
    | Except.error e => Except.error e
    | Except.ok st2 => Except.ok (none, st2)

mutual

/-- `Parser._parse_expr` (lines 283-302) up to its `while` loop. -/
def parseExpr : ℕ → PSt → Except PErr (RNode × PSt)
  | 0, _ => Except.error PErr.noFuel
  | n + 1, st =>
    match parseTerm n st with
    | Except.error e => Except.error e
    | Except.ok (none, _) => Except.error PErr.missingTerm
    | Except.ok (some t1, st1) => parseExprLoop n t1 st1

/-- The `while` loop of `_parse_expr`: fold further `'|' term` pieces
into left-associated UNION nodes, pushing the first non-union token
back. -/
def parseExprLoop : ℕ → RNode → PSt → Except PErr (RNode × PSt)
  | 0, _, _ => Except.error PErr.noFuel
  | n + 1, t1, st =>
    let (tok, st1) := pNext st
    if tok.ty = TokType.union then
      match parseTerm n st1 with
      | Except.error e => Except.error e
      | Except.ok (none, _) => Except.error PErr.missingAfterUnion
      | Except.ok (some t2, st2) =>
        parseExprLoop n (RNode.op ROp.union (some t1) (some t2)) st2
    else
      match pPush tok st1 with
      | Except.error e => Except.error e
      | Except.ok st2 => Except.ok (t1, st2)

/-- `Parser._parse_term` (lines 304-316) up to its `while` loop. -/
def parseTerm : ℕ → PSt → Except PErr (Option RNode × PSt)
  | 0, _ => Except.error PErr.noFuel
  | n + 1, st =>
    match parseFactor n st with
    | Except.error e => Except.error e
    | Except.ok (none, st1) => Except.ok (none, st1)
    | Except.ok (some f1, st1) => parseTermLoop n f1 st1

/-- The `while` loop of `_parse_term`: fold further factors into
left-associated CONCAT nodes. -/
def parseTermLoop : ℕ → RNode → PSt → Except PErr (Option RNode × PSt)
  | 0, _, _ => Except.error PErr.noFuel
  | n + 1, f1, st =>
    match parseFactor n st with
    | Except.error e => Except.error e
    | Except.ok (none, st1) => Except.ok (some f1, st1)
    | Except.ok (some f2, st1) =>
      parseTermLoop n (RNode.op ROp.concat (some f1) (some f2)) st1

/-- `Parser._parse_factor` (lines 318-341).  The `if expr is None`
check after the recursive `_parse_expr` call is dead code in the
source (`_parse_expr` never returns `None`), and has no counterpart
here because the return type says so. -/
def parseFactor : ℕ → PSt → Except PErr (Option RNode × PSt)
  | 0, _ => Except.error PErr.noFuel
  | n + 1, st =>
    let (tok, st1) := pNext st
    if tok.ty = TokType.symbol ∨ tok.ty = TokType.dot then
      parseFactorLoop n (RNode.leaf tok) st1
    else if tok.ty = TokType.lParen then
      match parseExpr n st1 with
      | Except.error e => Except.error e
      | Except.ok (e1, st2) =>
        let (tok2, st3) := pNext st2
        if tok2.ty = TokType.rParen then parseFactorLoop n e1 st3
        else Except.error PErr.missingRParen
    else
      match pPush tok st1 with
      | Except.error e => Except.error e
      | Except.ok st2 => Except.ok (none, st2)

/-- The exponent `while` loop of `_parse_factor` (lines 333-340):
attach `* + ?` exponents left-to-right. -/
def parseFactorLoop : ℕ → RNode → PSt → Except PErr (Option RNode × PSt)
  | 0, _, _ => Except.error PErr.noFuel
  | n + 1, e1, st =>
    match parseExponent st with
    | Except.error e => Except.error e
    | Except.ok (none, st1) => Except.ok (some e1, st1)
    | Except.ok (some ex, st1) => parseFactorLoop n (setLeft ex e1) st1

end

/-- `Parser.parse` (lines 357-361): parse the whole token stream as one
expression; tokens after the expression (including a pushed-back
leftover) are ignored. -/
def parseRegex (fuel : ℕ) (s : String) : Except PErr (RNode × PSt) :=
  parseExpr fuel ⟨lexAll s.toList, none⟩

inductive EvalErr where
  | missingLeftOperand | missingRightOperand | invalidOperand
deriving DecidableEq

/-- The characters of Python's `string.printable`, used by the DOT
leaf (`Node.eval` line 255 builds `Regular.from_finite(set(printable))`). -/
def printableChars : List Char :=
  ("0123456789abcdefghijklmnopqrstuvwxyz" ++
    "ABCDEFGHIJKLMNOPQRSTUVWXYZ" ++
    "!\"#$%&'()*+,-./:;<=>?@[\\]^_`\x7b|\x7d~ \t\n\r\x0b\x0c").toList

/-- The language of the DOT leaf: every one-character string over the
printable alphabet. -/
def dotLang : Language Char :=
  {w | ∃ c ∈ printableChars, w = [c]}

/-- `Node.eval` (`regular.py` lines 224-258), interpreted
denotationally: each `Regular`/automaton operation is read as the
language it constructs — SYMBOL is the singleton language of its
lexeme, UNION is `|` (language union), CONCAT is `+` (language
concatenation), STAR is the Kleene star of the operand, PLUS is the
operand concatenated with the Kleene star of a (fresh-state) copy of
the operand, QUESTION is union with the empty-string language.  As in
the source, the right operand is evaluated before the missing-left
check, and a missing required operand or an unsupported leaf token is
an evaluation error (`a | None` / `a + None` is Python's `TypeError`,
`missingRightOperand` here). -/
def evalNode : RNode → Except EvalErr (Language Char)
  | RNode.leaf t =>
    match t.ty with
    | TokType.symbol => Except.ok {t.lexeme.toList}
    | TokType.dot => Except.ok dotLang
    | _ => Except.error EvalErr.invalidOperand
  | RNode.op _ none none => Except.error EvalErr.missingLeftOperand
  | RNode.op _ none (some rn) =>
    match evalNode rn with
    | Except.error e => Except.error e
    | Except.ok _ => Except.error EvalErr.missingLeftOperand
  | RNode.op o (some ln) none =>
    match evalNode ln with
    | Except.error e => Except.error e
    | Except.ok a =>
      match o with
      | ROp.union => Except.error EvalErr.missingRightOperand
      | ROp.concat => Except.error EvalErr.missingRightOperand
      | ROp.star => Except.ok (a∗)
      | ROp.plus => Except.ok (a * a∗)
      | ROp.question => Except.ok (a + 1)
  | RNode.op o (some ln) (some rn) =>
    match evalNode ln with
    | Except.error e => Except.error e
    | Except.ok a =>
      match evalNode rn with
      | Except.error e => Except.error e
      | Except.ok b =>
        match o with
        | ROp.union => Except.ok (a + b)
        | ROp.concat => Except.ok (a * b)
        | ROp.star => Except.ok (a∗)
        | ROp.plus => Except.ok (a * a∗)
        | ROp.question => Except.ok (a + 1)

/-- `Regular.from_regex` (`regular.py` lines 37-42):
`Parser(regex).parse().eval()`. -/
def fromRegexL (fuel : ℕ) (s : String) :
    Except (PErr ⊕ EvalErr) (Language Char) :=
  match parseRegex fuel s with
  | Except.error e => Except.error (Sum.inl e)
  | Except.ok (n, _) =>
    match evalNode n with
    | Except.error e => Except.error (Sum.inr e)
    | Except.ok L => Except.ok L

/-- Membership in the language produced by `Regular.from_regex` (false
when `from_regex` fails). -/
def memRegex (fuel : ℕ) (s : String) (w : List Char) : Prop :=
  match fromRegexL fuel s with
  | Except.ok L => w ∈ L
  | Except.error _ => False

/-- Whether an `Except` computation succeeded. -/
def exceptOk {ε α : Type _} : Except ε α → Bool
  | Except.ok _ => true
  | Except.error _ => false

/-- Counterexample to claim C7 as stated.  A trailing backslash escape
does not always make `Regular.from_regex` fail: on the pattern `a\\`
the lexer's ERROR token is pushed back and silently discarded after
the complete expression `a`, and `from_regex` succeeds, returning the
language of `a`. -/
theorem trailing_escape_parses : exceptOk (fromRegexL 32 "a\\") = true :=
  rfl

/-- Claim C7 (amended).  Empty input, a `'|'` with no following term,
and an unmatched `'('` each make `Regular.from_regex` fail with a parse
error; a trailing backslash escape fails only where a term is required
(e.g. the whole pattern `\\`), while after a complete expression (e.g.
`a\\`) the ERROR token is pushed back and ignored and parsing succeeds
with the preceding expression (the final parser state still holds the
pushed-back ERROR token). -/
theorem malformed_regex_errors :
    parseRegex 32 "" = Except.error PErr.missingTerm ∧
      parseRegex 32 "a|" = Except.error PErr.missingAfterUnion ∧
      parseRegex 32 "(a" = Except.error PErr.missingRParen ∧
      parseRegex 32 "\\" = Except.error PErr.missingTerm ∧
      parseRegex 32 "a\\" = Except.ok (RNode.leaf ⟨TokType.symbol, "a"⟩,
        ⟨[], some ⟨TokType.tError, ""⟩⟩) :=
  ⟨rfl, rfl, rfl, rfl, rfl⟩

/-- Claim C8.  The languages `Regular.from_regex("a+")` and
`Regular.from_regex("aa*")` are equal: every string belongs to one iff
it belongs to the other — PLUS(a) evaluates to `eval(a)` concatenated
with the Kleene star of (a copy of) `eval(a)`, which is exactly what
`aa*` evaluates to. -/
theorem plus_star_equivalence (w : List Char) :
    memRegex 32 "a+" w ↔ memRegex 32 "aa*" w :=
  Iff.rfl

lemma pNext_pb (st : PSt) : (pNext st).2.pb = none := by
  match st with
  | ⟨toks, some t⟩ => rfl
  | ⟨[], none⟩ => rfl
  | ⟨t :: ts, none⟩ => rfl

lemma pPush_ok (t : Tok) (st : PSt) (h : st.pb = none) :
    pPush t st = Except.ok ⟨st.toks, some t⟩ := by
  unfold pPush
  rw [h]

lemma parseExponent_ok (st : PSt) :
    ∃ r, parseExponent st = Except.ok r := by
  match st with
  | ⟨toks, some t⟩ =>
    rcases t with ⟨ty, lex⟩
    cases ty <;> exact ⟨_, rfl⟩
  | ⟨[], none⟩ => exact ⟨_, rfl⟩
  | ⟨t :: ts, none⟩ =>
    rcases t with ⟨ty, lex⟩
    cases ty <;> exact ⟨_, rfl⟩

/-- Master invariant: every call to `_pushback_token` made by the
parser happens immediately after `_next_token`, whose result state has
an empty pushback slot, so no parser function can ever produce the
internal "pushback error" — from any state and with any fuel. -/
lemma parse_no_pushbackErr : ∀ n : ℕ,
    (∀ st, parseExpr n st ≠ Except.error PErr.pushbackErr) ∧
      (∀ t st, parseExprLoop n t st ≠ Except.error PErr.pushbackErr) ∧
      (∀ st, parseTerm n st ≠ Except.error PErr.pushbackErr) ∧
      (∀ t st, parseTermLoop n t st ≠ Except.error PErr.pushbackErr) ∧
      (∀ st, parseFactor n st ≠ Except.error PErr.pushbackErr) ∧
      (∀ t st, parseFactorLoop n t st ≠ Except.error PErr.pushbackErr) := by
  intro n
  induction n with
  | zero =>
    refine ⟨?_, ?_, ?_, ?_, ?_, ?_⟩ <;> intros <;>
      simp [parseExpr, parseExprLoop, parseTerm, parseTermLoop,
        parseFactor, parseFactorLoop]
  | succ n ih =>
    obtain ⟨ihE, ihEL, ihT, ihTL, ihF, ihFL⟩ := ih
    refine ⟨?_, ?_, ?_, ?_, ?_, ?_⟩
    · intro st
      cases hT : parseTerm n st with
      | error e =>
        simp only [parseExpr, hT]
        intro he
        injection he with h
        exact ihT st (by rw [hT, h])
      | ok r =>
        rcases r with ⟨o, st1⟩
        cases o with
        | none => simp [parseExpr, hT]
        | some t1 =>
          simp only [parseExpr, hT]
          exact ihEL t1 st1
    · intro t1 st
      rcases hp : pNext st with ⟨tok, st1⟩
      have hpb : st1.pb = none := by
        have h := pNext_pb st
        rw [hp] at h
        exact h
      by_cases htok : tok.ty = TokType.union
      · cases hT : parseTerm n st1 with
        | error e =>
          simp only [parseExprLoop, hp, if_pos htok, hT]
          intro he
          injection he with h
          exact ihT st1 (by rw [hT, h])
        | ok r =>
          rcases r with ⟨o, st2⟩
          cases o with
          | none => simp [parseExprLoop, hp, if_pos htok, hT]
          | some t2 =>
            simp only [parseExprLoop, hp, if_pos htok, hT]
            exact ihEL _ st2
      · simp only [parseExprLoop, hp, if_neg htok, pPush_ok tok st1 hpb]
        simp
    · intro st
      cases hF : parseFactor n st with
      | error e =>
        simp only [parseTerm, hF]
        intro he
        injection he with h
        exact ihF st (by rw [hF, h])
      | ok r =>
        rcases r with ⟨o, st1⟩
        cases o with
        | none => simp [parseTerm, hF]
        | some f1 =>
          simp only [parseTerm, hF]
          exact ihTL f1 st1
    · intro f1 st
      cases hF : parseFactor n st with
      | error e =>
        simp only [parseTermLoop, hF]
        intro he
        injection he with h
        exact ihF st (by rw [hF, h])
      | ok r =>
        rcases r with ⟨o, st1⟩
        cases o with
        | none => simp [parseTermLoop, hF]
        | some f2 =>
          simp only [parseTermLoop, hF]
          exact ihTL _ st1
    · intro st
      rcases hp : pNext st with ⟨tok, st1⟩
      have hpb : st1.pb = none := by
        have h := pNext_pb st
        rw [hp] at h
        exact h
      by_cases hsym : tok.ty = TokType.symbol ∨ tok.ty = TokType.dot
      · simp only [parseFactor, hp, if_pos hsym]
        exact ihFL _ st1
      · by_cases hlp : tok.ty = TokType.lParen
        · cases hE : parseExpr n st1 with
          | error e =>
            simp only [parseFactor, hp, if_neg hsym, if_pos hlp, hE]
            intro he
            injection he with h
            exact ihE st1 (by rw [hE, h])
          | ok r =>
            rcases r with ⟨e1, st2⟩
            rcases hp2 : pNext st2 with ⟨tok2, st3⟩
            by_cases hrp : tok2.ty = TokType.rParen
            · simp only [parseFactor, hp, if_neg hsym, if_pos hlp, hE,
                hp2, if_pos hrp]
              exact ihFL _ st3
            · simp [parseFactor, hp, if_neg hsym, if_pos hlp, hE, hp2,
                if_neg hrp]
        · simp only [parseFactor, hp, if_neg hsym, if_neg hlp,
            pPush_ok tok st1 hpb]
          simp
    · intro e1 st
      obtain ⟨r, hr⟩ := parseExponent_ok st
      rcases r with ⟨o, st1⟩
      cases o with
      | none => simp [parseFactorLoop, hr]
      | some ex =>
        simp only [parseFactorLoop, hr]
        exact ihFL _ st1

/-- Claim C10.  For every fuel bound, every parser state (in
particular the initial state of `parse()`, whose pushback slot is
empty) and every input token stream, the parser never raises the
internal "pushback error": the single-token pushback slot is empty
whenever `_pushback_token` is called. -/
theorem pushback_error_unreachable (fuel : ℕ) :
    (∀ st : PSt, parseExpr fuel st ≠ Except.error PErr.pushbackErr) ∧
      ∀ s : String, parseRegex fuel s ≠ Except.error PErr.pushbackErr :=
  ⟨(parse_no_pushbackErr fuel).1,
    fun s => (parse_no_pushbackErr fuel).1 ⟨lexAll s.toList, none⟩⟩

end RegexEq
